import Mathlib

/-!
Verification of the libbitcoin `big_number` core: a sign-magnitude
arbitrary-precision integer over canonical big-endian byte sequences,
with the 4-byte "compact" proof-of-work target codec, the 32-byte hash
projection, comparison, subtraction and multiplication.

The `big_number` implementation itself is not among the provided sources
(only its test driver, which exercises `set_compact`, `hash`, `set_hash`,
`compact`, comparison, subtraction and multiplication); the definitions
below are therefore modelled from the specification's behavioural
contract, and the theorems settle the spec's claims against that model.

Bytes are modelled as natural numbers below 256; byte sequences as
`List Nat` in big-endian order, canonical (no leading zero byte, the
empty list denoting zero).
-/

namespace Libbitcoin

/-- Value of a big-endian byte sequence: fold accumulating base-256 digits. -/
def beVal (l : List Nat) : Nat :=
  l.foldl (fun a b => a * 256 + b) 0

/-- Fuel-driven conversion of a natural number to its minimal big-endian
byte sequence; the fuel bounds the recursion depth and any fuel at least
the value itself is sufficient. -/
def natToBEAux : Nat → Nat → List Nat
  | 0, _ => []
  | fuel + 1, n => if n = 0 then [] else natToBEAux fuel (n / 256) ++ [n % 256]

/-- Minimal (canonical) big-endian byte sequence of a natural number;
`natToBE 0 = []`. -/
def natToBE (n : Nat) : List Nat :=
  natToBEAux n n

/-- Value of the empty byte sequence. -/
theorem beVal_nil : beVal [] = 0 :=
  rfl

/-- Generalized fold characterization of `beVal` with an arbitrary
accumulator. -/
theorem beVal_go (l : List Nat) :
    ∀ a : Nat, l.foldl (fun a b => a * 256 + b) a = a * 256 ^ l.length + beVal l := by
  induction l with
  | nil => intro a; simp [beVal]
  | cons h t ih =>
      intro a
      simp only [List.foldl_cons, List.length_cons, beVal, Nat.zero_mul, Nat.zero_add] at *
      rw [ih (a * 256 + h), ih h]
      ring

/-- `beVal` of a cons decomposes into the leading byte's weight plus the
tail's value. -/
theorem beVal_cons (h : Nat) (t : List Nat) :
    beVal (h :: t) = h * 256 ^ t.length + beVal t := by
  simp only [beVal, List.foldl_cons]
  simpa using beVal_go t h

/-- `beVal` of an appended final byte shifts the front value by one base-256
digit. -/
theorem beVal_append_singleton (l : List Nat) (b : Nat) :
    beVal (l ++ [b]) = beVal l * 256 + b := by
  simp only [beVal, List.foldl_append, List.foldl_cons, List.foldl_nil]

/-- Fuel irrelevance: any fuel at least the value gives the same byte
sequence. -/
theorem natToBEAux_fuel (f1 : Nat) :
    ∀ f2 n, n ≤ f1 → n ≤ f2 → natToBEAux f1 n = natToBEAux f2 n := by
  induction f1 with
  | zero =>
      intro f2 n h1 _
      interval_cases n
      cases f2 <;> simp [natToBEAux]
  | succ f ih =>
      intro f2 n h1 h2
      cases f2 with
      | zero =>
          interval_cases n
          simp [natToBEAux]
      | succ f' =>
          by_cases hn : n = 0
          · simp [natToBEAux, hn]
          · have hd : n / 256 ≤ f := by
              have : n / 256 < n := Nat.div_lt_self (Nat.pos_of_ne_zero hn) (by omega)
              omega
            have hd2 : n / 256 ≤ f' := by
              have : n / 256 < n := Nat.div_lt_self (Nat.pos_of_ne_zero hn) (by omega)
              omega
            simp only [natToBEAux, hn, if_false]
            rw [ih f' (n / 256) hd hd2]

/-- Unfolding step of `natToBE` at a nonzero value. -/
theorem natToBE_step (m : Nat) (hm : m ≠ 0) :
    natToBE m = natToBE (m / 256) ++ [m % 256] := by
  cases m with
  | zero => exact absurd rfl hm
  | succ k =>
      show natToBEAux (k + 1) (k + 1) = natToBEAux ((k + 1) / 256) ((k + 1) / 256) ++ _
      have hd : (k + 1) / 256 < k + 1 := Nat.div_lt_self (by omega) (by omega)
      simp only [natToBEAux, if_neg (Nat.succ_ne_zero k)]
      rw [natToBEAux_fuel k ((k + 1) / 256) ((k + 1) / 256) (by omega) (by omega)]

/-- Master specification of `natToBEAux`: it evaluates back to its input,
produces bytes below 256, never starts with a zero byte, and is empty
exactly on zero. -/
theorem natToBEAux_spec (fuel : Nat) :
    ∀ n, n ≤ fuel →
      beVal (natToBEAux fuel n) = n
      ∧ (∀ b ∈ natToBEAux fuel n, b < 256)
      ∧ (natToBEAux fuel n).head? ≠ some 0
      ∧ (natToBEAux fuel n = [] ↔ n = 0) := by
  induction fuel with
  | zero =>
      intro n hn
      interval_cases n
      refine ⟨by simp [natToBEAux, beVal], by simp [natToBEAux], by simp [natToBEAux], by simp [natToBEAux]⟩
  | succ f ih =>
      intro n hn
      by_cases hz : n = 0
      · subst hz
        refine ⟨by simp [natToBEAux, beVal], by simp [natToBEAux], by simp [natToBEAux], by simp [natToBEAux]⟩
      · have hd : n / 256 ≤ f := by
          have : n / 256 < n := Nat.div_lt_self (Nat.pos_of_ne_zero hz) (by omega)
          omega
        obtain ⟨ihv, ihb, ihh, ihe⟩ := ih (n / 256) hd
        have hunf : natToBEAux (f + 1) n = natToBEAux f (n / 256) ++ [n % 256] := by
          simp [natToBEAux, hz]
        refine ⟨?_, ?_, ?_, ?_⟩
        · rw [hunf, beVal_append_singleton, ihv]; omega
        · intro b hb
          rw [hunf] at hb
          rcases List.mem_append.mp hb with h | h
          · exact ihb b h
          · simp at h; omega
        · rw [hunf]
          rcases hl : natToBEAux f (n / 256) with _ | ⟨x, xs⟩
          · have h0 : n / 256 = 0 := ihe.mp hl
            have : n % 256 = n := by omega
            simp [this, hz]
          · rw [hl] at ihh
            simpa using ihh
        · rw [hunf]
          simp [hz]

/-- `natToBE` evaluates back to its input. -/
theorem beVal_natToBE (n : Nat) : beVal (natToBE n) = n :=
  (natToBEAux_spec n n le_rfl).1

/-- Every byte of `natToBE n` is below 256. -/
theorem natToBE_lt256 (n : Nat) : ∀ b ∈ natToBE n, b < 256 :=
  (natToBEAux_spec n n le_rfl).2.1

/-- `natToBE n` never starts with a zero byte. -/
theorem natToBE_head (n : Nat) : (natToBE n).head? ≠ some 0 :=
  (natToBEAux_spec n n le_rfl).2.2.1

/-- `natToBE n` is empty exactly when `n` is zero. -/
theorem natToBE_eq_nil (n : Nat) : natToBE n = [] ↔ n = 0 :=
  (natToBEAux_spec n n le_rfl).2.2.2

/-- Modelled from the spec: the sole entity, a sign-magnitude value.
`negative` is true for negative values; `bytes` is the canonical minimal
big-endian magnitude (empty for zero). The C++ `big_number` class itself is
not among the provided sources, only its test driver. -/
structure big_number where
  negative : Bool
  bytes : List Nat
deriving DecidableEq

/-- Modelled from the spec: `data()` returns the canonical big-endian byte
sequence of the magnitude. -/
def big_number.data (x : big_number) : List Nat :=
  x.bytes

/-- Modelled from the spec: `set_data(bytes)` adopts the bytes verbatim as
the canonical big-endian magnitude, always non-negative (the caller
guarantees canonicity). -/
def set_data (d : List Nat) : big_number :=
  ⟨false, d⟩

/-- Modelled from the spec: `set_uint64(v)` sets the magnitude to `v` as an
8-byte big-endian value trimmed to canonical form, always non-negative. -/
def set_uint64 (v : Nat) : big_number :=
  ⟨false, natToBE (v % 2 ^ 64)⟩

/-- Modelled from the spec: `set_hash(h)` adopts a fixed 32-byte big-endian
buffer, trimming leading zero bytes to canonical minimal form, always
non-negative. -/
def set_hash (h : List Nat) : big_number :=
  ⟨false, h.dropWhile (· == 0)⟩

/-- Modelled from the spec: `hash()` reinterprets the current magnitude as a
fixed 32-byte big-endian buffer, left-padded with zero bytes; if the
canonical byte length exceeds 32 the projection fails with `RangeError`. -/
def big_number.hash (x : big_number) : Except String (List Nat) :=
  if x.bytes.length ≤ 32 then
    Except.ok (List.replicate (32 - x.bytes.length) 0 ++ x.bytes)
  else
    Except.error "RangeError"

/-- Modelled from the spec: magnitude decoded from a compact `size` field
and a (sign-masked) 3-byte mantissa. For `size ≤ 3` only the highest `size`
bytes of the mantissa are taken; for `size > 3` the mantissa occupies the
high-order 3 bytes of a `size`-byte buffer padded with zeros. The result is
trimmed to canonical minimal form. -/
def decodeMag (size mant : Nat) : List Nat :=
  let mant3 : List Nat := [mant / 2 ^ 16, mant / 2 ^ 8 % 2 ^ 8, mant % 2 ^ 8]
  let raw := if size ≤ 3 then mant3.take size else mant3 ++ List.replicate (size - 3) 0
  raw.dropWhile (· == 0)

/-- Modelled from the spec: `set_compact(code)` decodes the 4-byte compact
representation: `size = code >> 24`, mantissa `code & 0x007fffff`, sign flag
bit `0x00800000`; a zero magnitude is forced non-negative. -/
def set_compact (code : Nat) : big_number :=
  let size := code / 2 ^ 24 % 2 ^ 8
  let mant := code % 2 ^ 23
  let neg : Bool := code / 2 ^ 23 % 2 == 1
  let mag := decodeMag size mant
  ⟨neg && !mag.isEmpty, mag⟩

/-- Modelled from the spec: `compact()` encodes the value: `size` is the
canonical byte length, the mantissa candidate is the top 3 bytes of the
magnitude right-padded with zeros; if the candidate's bit `0x800000` is set
the mantissa is shifted right by 8 bits and `size` incremented; the code
composes `size`, the masked mantissa and the sign flag. -/
def big_number.compact (x : big_number) : Nat :=
  let size := x.bytes.length
  let mant := beVal ((x.bytes ++ [0, 0, 0]).take 3)
  let size2 := if 2 ^ 23 ≤ mant then size + 1 else size
  let mant2 := if 2 ^ 23 ≤ mant then mant / 2 ^ 8 else mant
  size2 * 2 ^ 24 + (if x.negative then 2 ^ 23 else 0) + mant2 % 2 ^ 23

/-- Strict lexicographic order on byte lists (used on equal-length canonical
operands, where it coincides with numeric magnitude order). -/
def lexLt : List Nat → List Nat → Bool
  | [], [] => false
  | [], _ :: _ => true
  | _ :: _, [] => false
  | a :: as, b :: bs => if a < b then true else if b < a then false else lexLt as bs

/-- Modelled from the spec: the comparison total order, by sign first
(negative below non-negative), then by byte-sequence length, then
lexicographically on the bytes. -/
def big_number.lt (a b : big_number) : Bool :=
  if a.negative ≠ b.negative then a.negative
  else if a.bytes.length < b.bytes.length then true
  else if b.bytes.length < a.bytes.length then false
  else lexLt a.bytes b.bytes

/-- Modelled from the spec: non-strict comparison, strict order or
equality. -/
def big_number.le (a b : big_number) : Bool :=
  a.lt b || decide (a = b)

/-- Modelled from the spec: sign-magnitude subtraction `a - b`: when
`|a| >= |b|` the magnitude is `|a| - |b|` with the sign of `a`, otherwise
`|b| - |a|` with the sign of `a` flipped; the result is re-canonicalized and
a zero result is forced non-negative. -/
def big_number.sub (a b : big_number) : big_number :=
  let va := beVal a.bytes
  let vb := beVal b.bytes
  if vb ≤ va then
    let m := natToBE (va - vb)
    ⟨a.negative && !m.isEmpty, m⟩
  else
    ⟨!a.negative, natToBE (vb - va)⟩

/-- Modelled from the spec: multiplication: magnitude `|a| * |b|`, sign the
XOR of the operand signs, a zero result forced non-negative. -/
def big_number.mul (a b : big_number) : big_number :=
  let m := natToBE (beVal a.bytes * beVal b.bytes)
  ⟨(a.negative != b.negative) && !m.isEmpty, m⟩

/-- Modelled from the spec: a magnitude equals a native integer `n` iff its
canonical form equals the canonical big-endian encoding of `n` with matching
sign (non-negative for a `Nat`). -/
def big_number.eqNat (x : big_number) (n : Nat) : Bool :=
  !x.negative && decide (x.bytes = natToBE n)

/-- Signed integer denotation of a `big_number`. -/
def big_number.toInt (x : big_number) : Int :=
  if x.negative then -(beVal x.bytes : Int) else (beVal x.bytes : Int)

/-- Modelled from the spec: `max_target()` is not among the provided
sources; the test driver compares compact-decoded targets against it, and
the spec's test data names the magnitude decoded from the maximum compact
code `0x1d00ffff` as the maximal target, so it is modelled as exactly that
decoded value. -/
def max_target : big_number :=
  set_compact 0x1d00ffff

/-- Canonical byte sequence: every byte is below 256 and there is no leading
zero byte (the empty list denotes zero). -/
def CanonBytes (l : List Nat) : Prop :=
  (∀ b ∈ l, b < 256) ∧ l.head? ≠ some 0

/-- Canonical value: canonical bytes, and a zero magnitude is non-negative. -/
def Canonical (x : big_number) : Prop :=
  CanonBytes x.bytes ∧ (x.bytes = [] → x.negative = false)

instance (l : List Nat) : Decidable (CanonBytes l) := by
  unfold CanonBytes
  infer_instance

instance (x : big_number) : Decidable (Canonical x) := by
  unfold Canonical
  infer_instance

/-- Trimming a byte list with a nonzero head is the identity. -/
theorem dropWhile_cons_ne (h : Nat) (t : List Nat) (hh : h ≠ 0) :
    (h :: t).dropWhile (· == 0) = h :: t := by
  have hb : (h == 0) = false := by simpa using hh
  simp [List.dropWhile, hb]

/-- Trimming never leaves a zero head. -/
theorem dropWhile_head_ne_zero (l : List Nat) :
    (l.dropWhile (· == 0)).head? ≠ some 0 := by
  induction l with
  | nil => simp
  | cons h t ih =>
      by_cases hh : h = 0
      · simpa [List.dropWhile, hh] using ih
      · have hb : (h == 0) = false := by simpa using hh
        simp [List.dropWhile, hb, hh]

/-- Trimming a list whose head is not zero is the identity. -/
theorem dropWhile_eq_self_of_head (l : List Nat) (hl : l.head? ≠ some 0) :
    l.dropWhile (· == 0) = l := by
  cases l with
  | nil => rfl
  | cons h t =>
      have hh : h ≠ 0 := by simpa using hl
      exact dropWhile_cons_ne h t hh

/-- Leading zero padding disappears under trimming. -/
theorem dropWhile_replicate_append (k : Nat) (l : List Nat) :
    (List.replicate k 0 ++ l).dropWhile (· == 0) = l.dropWhile (· == 0) := by
  induction k with
  | zero => simp
  | succ n ih => simp [List.replicate_succ, List.dropWhile, ih]

/-- C1: decoding the compact code 0x1d00ffff and projecting with `hash()`
yields 4 zero bytes, 0xFF, 0xFF, then 26 zero bytes; re-encoding the decoded
value with `compact()` yields exactly 0x1d00ffff. -/
theorem C1_decode_0x1d00ffff :
    (set_compact 0x1d00ffff).hash
        = Except.ok ([0x00, 0x00, 0x00, 0x00, 0xFF, 0xFF] ++ List.replicate 26 0x00)
      ∧ (set_compact 0x1d00ffff).compact = 0x1d00ffff :=
  ⟨by rfl, by decide⟩

/-- C2: decoding the compact code 0x1b0404cb and projecting with `hash()`
yields 5 zero bytes, 0x04, 0x04, 0xCB, then 24 zero bytes. -/
theorem C2_decode_0x1b0404cb :
    (set_compact 0x1b0404cb).hash
      = Except.ok (List.replicate 5 0x00 ++ [0x04, 0x04, 0xCB] ++ List.replicate 24 0x00) := by
  rfl

/-- Value of a three-byte big-endian sequence. -/
theorem beVal3 (x y z : Nat) : beVal [x, y, z] = x * 2 ^ 16 + y * 2 ^ 8 + z := by
  simp [beVal]
  ring

/-- Decoding a compact code composed from a size below 256, a sign flag and
a mantissa below 2^23 recovers exactly those fields. -/
theorem set_compact_build (size mant : Nat) (s : Bool)
    (hsize : size < 256) (hm : mant < 2 ^ 23) :
    set_compact (size * 2 ^ 24 + (if s then 2 ^ 23 else 0) + mant)
      = ⟨s && !(decodeMag size mant).isEmpty, decodeMag size mant⟩ := by
  have h1 : (size * 2 ^ 24 + (if s then 2 ^ 23 else 0) + mant) / 2 ^ 24 % 2 ^ 8 = size := by
    cases s <;> simp <;> omega
  have h2 : (size * 2 ^ 24 + (if s then 2 ^ 23 else 0) + mant) % 2 ^ 23 = mant := by
    cases s <;> simp <;> omega
  have h3 : ((size * 2 ^ 24 + (if s then 2 ^ 23 else 0) + mant) / 2 ^ 23 % 2 == 1) = s := by
    cases s <;> simp <;> omega
  simp only [set_compact, h1, h2, h3]

/-- Evaluation of `decodeMag` once the three mantissa bytes are known. -/
theorem decodeMag_eq (size m x y z : Nat)
    (h1 : m / 2 ^ 16 = x) (h2 : m / 2 ^ 8 % 2 ^ 8 = y) (h3 : m % 2 ^ 8 = z) :
    decodeMag size m
      = (if size ≤ 3 then ([x, y, z]).take size
         else [x, y, z] ++ List.replicate (size - 3) 0).dropWhile (· == 0) := by
  simp only [decodeMag, h1, h2, h3]

/-- Evaluation of `compact()` once the top three padded bytes are known. -/
theorem compact_eq (s : Bool) (l : List Nat) (x y z : Nat)
    (htop : (l ++ [0, 0, 0]).take 3 = [x, y, z]) :
    (big_number.mk s l).compact
      = (if 2 ^ 23 ≤ x * 2 ^ 16 + y * 2 ^ 8 + z then l.length + 1 else l.length) * 2 ^ 24
        + (if s then 2 ^ 23 else 0)
        + (if 2 ^ 23 ≤ x * 2 ^ 16 + y * 2 ^ 8 + z then (x * 2 ^ 16 + y * 2 ^ 8 + z) / 2 ^ 8
           else x * 2 ^ 16 + y * 2 ^ 8 + z) % 2 ^ 23 := by
  simp only [big_number.compact, htop, beVal3]

/-- C3 (counterexample): the canonical 3-byte magnitude 0x800101 has length
at most 3, yet decoding its compact encoding does not reproduce it: the
sign-bit collision rule shifts the mantissa right by 8 bits, so the third
byte is lost and the round trip yields 0x800100. -/
theorem C3_counterexample :
    (set_data [0x80, 0x01, 0x01]).bytes.length ≤ 3
      ∧ set_compact (set_data [0x80, 0x01, 0x01]).compact ≠ set_data [0x80, 0x01, 0x01]
      ∧ (set_compact (set_data [0x80, 0x01, 0x01]).compact).data = [0x80, 0x01, 0x00] :=
  ⟨by decide, by decide, by decide⟩

/-- C3 (amended): for every canonical magnitude of length 1 through 34,
decoding the encoding keeps the top 3 bytes and zeroes the rest when the
top byte's high bit is clear, and keeps only the top 2 bytes and zeroes the
rest when the top byte's high bit is set (the mantissa is shifted right by
8 bits and the size field is incremented by one in that case). Exact
round-trip therefore holds precisely when all discarded low-order bytes
were zero. -/
theorem C3_roundtrip_amended (s : Bool) (b : Nat) (t : List Nat)
    (hb : b ≠ 0) (h256 : ∀ y ∈ b :: t, y < 256) (hlen : (b :: t).length ≤ 34) :
    set_compact (big_number.mk s (b :: t)).compact
        = big_number.mk s ((b :: t).take (if b < 128 then 3 else 2)
            ++ List.replicate ((b :: t).length - (if b < 128 then 3 else 2)) 0)
      ∧ (128 ≤ b → (big_number.mk s (b :: t)).compact / 2 ^ 24 = (b :: t).length + 1)
      ∧ (b < 128 → (big_number.mk s (b :: t)).compact / 2 ^ 24 = (b :: t).length) := by
  have hb256 : b < 256 := h256 b (by simp)
  have hite : (if s then 2 ^ 23 else 0) ≤ 2 ^ 23 := by cases s <;> simp
  rcases t with _ | ⟨b1, t1⟩
  · -- magnitude [b]
    have hc := compact_eq s [b] b 0 0 rfl
    simp only [List.length_cons, List.length_nil] at hc
    by_cases h128 : b < 128
    · have hm : ¬ 2 ^ 23 ≤ b * 2 ^ 16 + 0 * 2 ^ 8 + 0 := by omega
      rw [if_neg hm, if_neg hm] at hc
      have harg : (big_number.mk s [b]).compact
          = 1 * 2 ^ 24 + (if s then 2 ^ 23 else 0) + b * 2 ^ 16 := by
        rw [hc]; omega
      have hdm : decodeMag 1 (b * 2 ^ 16) = [b] := by
        rw [decodeMag_eq 1 (b * 2 ^ 16) b 0 0 (by omega) (by omega) (by omega)]
        norm_num [List.take]
        exact hb
      refine ⟨?_, by intro h; omega, ?_⟩
      · rw [harg, set_compact_build 1 (b * 2 ^ 16) s (by omega) (by omega), hdm]
        simp [h128]
      · intro _
        rw [harg]
        simp only [List.length_cons, List.length_nil]
        omega
    · have hm : 2 ^ 23 ≤ b * 2 ^ 16 + 0 * 2 ^ 8 + 0 := by omega
      rw [if_pos hm, if_pos hm] at hc
      have harg : (big_number.mk s [b]).compact
          = 2 * 2 ^ 24 + (if s then 2 ^ 23 else 0) + b * 2 ^ 8 := by
        rw [hc]; omega
      have hdm : decodeMag 2 (b * 2 ^ 8) = [b] := by
        rw [decodeMag_eq 2 (b * 2 ^ 8) 0 b 0 (by omega) (by omega) (by omega)]
        norm_num [List.take, List.dropWhile]
        have hbeq : (b == 0) = false := by simpa using hb
        simp [hbeq]
      refine ⟨?_, ?_, by intro h; omega⟩
      · rw [harg, set_compact_build 2 (b * 2 ^ 8) s (by omega) (by omega), hdm]
        simp [h128]
      · intro _
        rw [harg]
        simp only [List.length_cons, List.length_nil]
        omega
  · rcases t1 with _ | ⟨b2, t2⟩
    · -- magnitude [b, b1]
      have hb1 : b1 < 256 := h256 b1 (by simp)
      have hc := compact_eq s [b, b1] b b1 0 rfl
      simp only [List.length_cons, List.length_nil] at hc
      by_cases h128 : b < 128
      · have hm : ¬ 2 ^ 23 ≤ b * 2 ^ 16 + b1 * 2 ^ 8 + 0 := by omega
        rw [if_neg hm, if_neg hm] at hc
        have harg : (big_number.mk s [b, b1]).compact
            = 2 * 2 ^ 24 + (if s then 2 ^ 23 else 0) + (b * 2 ^ 16 + b1 * 2 ^ 8) := by
          rw [hc]; omega
        have hdm : decodeMag 2 (b * 2 ^ 16 + b1 * 2 ^ 8) = [b, b1] := by
          rw [decodeMag_eq 2 (b * 2 ^ 16 + b1 * 2 ^ 8) b b1 0 (by omega) (by omega) (by omega)]
          norm_num [List.take]
          exact hb
        refine ⟨?_, by intro h; omega, ?_⟩
        · rw [harg, set_compact_build 2 (b * 2 ^ 16 + b1 * 2 ^ 8) s (by omega) (by omega), hdm]
          simp [h128]
        · intro _
          rw [harg]
          simp only [List.length_cons, List.length_nil]
          omega
      · have hm : 2 ^ 23 ≤ b * 2 ^ 16 + b1 * 2 ^ 8 + 0 := by omega
        rw [if_pos hm, if_pos hm] at hc
        have harg : (big_number.mk s [b, b1]).compact
            = 3 * 2 ^ 24 + (if s then 2 ^ 23 else 0) + (b * 2 ^ 8 + b1) := by
          rw [hc]; omega
        have hdm : decodeMag 3 (b * 2 ^ 8 + b1) = [b, b1] := by
          rw [decodeMag_eq 3 (b * 2 ^ 8 + b1) 0 b b1 (by omega) (by omega) (by omega)]
          norm_num [List.take, List.dropWhile]
          have hbeq : (b == 0) = false := by simpa using hb
          simp [hbeq]
        refine ⟨?_, ?_, by intro h; omega⟩
        · rw [harg, set_compact_build 3 (b * 2 ^ 8 + b1) s (by omega) (by omega), hdm]
          simp [h128]
        · intro _
          rw [harg]
          simp only [List.length_cons, List.length_nil]
          omega
    · -- magnitude b :: b1 :: b2 :: t2
      have hb1 : b1 < 256 := h256 b1 (by simp)
      have hb2 : b2 < 256 := h256 b2 (by simp)
      have hlen2 : t2.length ≤ 31 := by
        simp only [List.length_cons] at hlen
        omega
      have htop : ((b :: b1 :: b2 :: t2) ++ [0, 0, 0]).take 3 = [b, b1, b2] := rfl
      have hc := compact_eq s (b :: b1 :: b2 :: t2) b b1 b2 htop
      simp only [List.length_cons] at hc
      have hrep : (b :: b1 :: b2 :: t2).length - 3 = t2.length := by
        simp only [List.length_cons]
        omega
      have hrep2 : (b :: b1 :: b2 :: t2).length - 2 = t2.length + 1 := by
        simp only [List.length_cons]
        omega
      by_cases h128 : b < 128
      · have hm : ¬ 2 ^ 23 ≤ b * 2 ^ 16 + b1 * 2 ^ 8 + b2 := by omega
        rw [if_neg hm, if_neg hm] at hc
        have harg : (big_number.mk s (b :: b1 :: b2 :: t2)).compact
            = (t2.length + 3) * 2 ^ 24 + (if s then 2 ^ 23 else 0)
              + (b * 2 ^ 16 + b1 * 2 ^ 8 + b2) := by
          rw [hc]; omega
        have hdm : decodeMag (t2.length + 3) (b * 2 ^ 16 + b1 * 2 ^ 8 + b2)
            = [b, b1, b2] ++ List.replicate t2.length 0 := by
          rw [decodeMag_eq (t2.length + 3) (b * 2 ^ 16 + b1 * 2 ^ 8 + b2) b b1 b2
            (by omega) (by omega) (by omega)]
          rcases Nat.eq_zero_or_pos t2.length with h0 | hpos
          · rw [h0]
            norm_num [List.take]
            exact hb
          · rw [if_neg (by omega), Nat.add_sub_cancel]
            simp only [List.cons_append, List.nil_append]
            exact dropWhile_cons_ne b (b1 :: b2 :: List.replicate t2.length 0) hb
        refine ⟨?_, by intro h; omega, ?_⟩
        · rw [harg,
            set_compact_build (t2.length + 3) (b * 2 ^ 16 + b1 * 2 ^ 8 + b2) s
              (by omega) (by omega), hdm]
          simp [h128, hrep, List.take]
        · intro _
          rw [harg]
          simp only [List.length_cons]
          omega
      · have hm : 2 ^ 23 ≤ b * 2 ^ 16 + b1 * 2 ^ 8 + b2 := by omega
        rw [if_pos hm, if_pos hm] at hc
        have harg : (big_number.mk s (b :: b1 :: b2 :: t2)).compact
            = (t2.length + 4) * 2 ^ 24 + (if s then 2 ^ 23 else 0) + (b * 2 ^ 8 + b1) := by
          rw [hc]; omega
        have hdm : decodeMag (t2.length + 4) (b * 2 ^ 8 + b1)
            = [b, b1] ++ List.replicate (t2.length + 1) 0 := by
          rw [decodeMag_eq (t2.length + 4) (b * 2 ^ 8 + b1) 0 b b1
            (by omega) (by omega) (by omega)]
          rw [if_neg (by omega)]
          have hshift : t2.length + 4 - 3 = t2.length + 1 := by omega
          rw [hshift]
          simp only [List.cons_append, List.nil_append, List.dropWhile]
          have hbeq : (b == 0) = false := by simpa using hb
          simp [hbeq]
        refine ⟨?_, ?_, by intro h; omega⟩
        · rw [harg,
            set_compact_build (t2.length + 4) (b * 2 ^ 8 + b1) s (by omega) (by omega), hdm]
          simp [h128, hrep2, List.take]
        · intro _
          rw [harg]
          simp only [List.length_cons]
          omega

/-- C3 (witness): the amended round-trip theorem instantiated at the
magnitude 0x800101, whose high bit is set: the round trip keeps only the
top two bytes and zeroes the rest. -/
theorem C3_roundtrip_amended_witness :
    set_compact (big_number.mk false (0x80 :: [0x01, 0x01])).compact
      = big_number.mk false ((0x80 :: [0x01, 0x01]).take (if 0x80 < 128 then 3 else 2)
          ++ List.replicate ((0x80 :: [0x01, 0x01]).length - (if 0x80 < 128 then 3 else 2)) 0) :=
  (C3_roundtrip_amended false 0x80 [0x01, 0x01] (by decide) (by decide) (by decide)).1

/-- C4: for any non-negative canonical magnitude of length at most 32,
projecting with `hash()` succeeds and adopting the projection with
`set_hash` reproduces the canonical data exactly. -/
theorem C4_hash_data_symmetry (m : big_number) (hc : Canonical m)
    (_hn : m.negative = false) (hlen : m.bytes.length ≤ 32) :
    ∃ h, m.hash = Except.ok h ∧ (set_hash h).data = m.data := by
  refine ⟨List.replicate (32 - m.bytes.length) 0 ++ m.bytes, ?_, ?_⟩
  · simp [big_number.hash, hlen]
  · simp only [set_hash, big_number.data, dropWhile_replicate_append]
    exact dropWhile_eq_self_of_head m.bytes hc.1.2

/-- C4 (witness): the symmetry instantiated at the one-byte magnitude 4. -/
theorem C4_hash_data_symmetry_witness :
    ∃ h, (big_number.mk false [0x04]).hash = Except.ok h
      ∧ (set_hash h).data = (big_number.mk false [0x04]).data :=
  C4_hash_data_symmetry (big_number.mk false [0x04]) (by decide) rfl (by decide)

/-- C9: `hash()` fails with `RangeError` whenever the canonical byte length
exceeds 32, and for length at most 32 it succeeds with the magnitude
left-padded with zero bytes to exactly 32 bytes. -/
theorem C9_hash_range (x : big_number) :
    (32 < x.bytes.length → x.hash = Except.error "RangeError")
      ∧ (x.bytes.length ≤ 32 →
          x.hash = Except.ok (List.replicate (32 - x.bytes.length) 0 ++ x.bytes)
            ∧ ∀ h, x.hash = Except.ok h → h.length = 32) := by
  constructor
  · intro hgt
    simp [big_number.hash, Nat.not_le.mpr hgt]
  · intro hle
    have hok : x.hash = Except.ok (List.replicate (32 - x.bytes.length) 0 ++ x.bytes) := by
      simp [big_number.hash, hle]
    refine ⟨hok, ?_⟩
    intro h hh
    rw [hok] at hh
    injection hh with hh
    rw [← hh]
    simp only [List.length_append, List.length_replicate]
    omega

/-- C9 (witness): a 33-byte magnitude is rejected with `RangeError`; a
1-byte magnitude is padded to 32 bytes. -/
theorem C9_hash_range_witness :
    (big_number.mk false (List.replicate 33 1)).hash = Except.error "RangeError"
      ∧ (big_number.mk false [0x05]).hash
          = Except.ok (List.replicate (32 - [0x05].length) 0 ++ [0x05]) :=
  ⟨(C9_hash_range (big_number.mk false (List.replicate 33 1))).1 (by decide),
   ((C9_hash_range (big_number.mk false [0x05])).2 (by decide)).1⟩

/-- C10: the value decoded from compact 0x1d00ffff is less than or equal to
the library's maximum proof-of-work target, and the value decoded from
compact 0x1b0404cb is strictly less than that maximum target. -/
theorem C10_max_target_bounds :
    (set_compact 0x1d00ffff).le max_target = true
      ∧ (set_compact 0x1b0404cb).lt max_target = true :=
  ⟨by decide, by decide⟩

/-- Characterization of strict lexicographic order on cons cells. -/
theorem lexLt_cons_iff (x y : Nat) (xs ys : List Nat) :
    lexLt (x :: xs) (y :: ys) = true ↔ x < y ∨ (x = y ∧ lexLt xs ys = true) := by
  simp only [lexLt]
  rcases Nat.lt_trichotomy x y with h | h | h
  · simp [h]
  · subst h
    simp
  · have h1 : ¬ x < y := by omega
    have h2 : x ≠ y := by omega
    simp [h1, h2, h]

/-- Lexicographic order is irreflexive. -/
theorem lexLt_irrefl (l : List Nat) : lexLt l l = false := by
  induction l with
  | nil => rfl
  | cons a as ih => simp [lexLt, ih]

/-- Lexicographic order is transitive. -/
theorem lexLt_trans (a : List Nat) :
    ∀ b c : List Nat, lexLt a b = true → lexLt b c = true → lexLt a c = true := by
  induction a with
  | nil =>
      intro b c h1 h2
      cases b with
      | nil => simp [lexLt] at h1
      | cons y ys =>
          cases c with
          | nil => simp [lexLt] at h2
          | cons z zs => simp [lexLt]
  | cons x xs ih =>
      intro b c h1 h2
      cases b with
      | nil => simp [lexLt] at h1
      | cons y ys =>
          cases c with
          | nil => simp [lexLt] at h2
          | cons z zs =>
              rw [lexLt_cons_iff] at h1 h2 ⊢
              rcases h1 with h1 | ⟨rfl, h1⟩
              · rcases h2 with h2 | ⟨rfl, h2⟩
                · exact Or.inl (lt_trans h1 h2)
                · exact Or.inl h1
              · rcases h2 with h2 | ⟨rfl, h2⟩
                · exact Or.inl h2
                · exact Or.inr ⟨rfl, ih ys zs h1 h2⟩

/-- Two lists unrelated by lexicographic order in either direction are
equal. -/
theorem lexLt_antisymm (a : List Nat) :
    ∀ b : List Nat, lexLt a b = false → lexLt b a = false → a = b := by
  induction a with
  | nil =>
      intro b h1 _
      cases b with
      | nil => rfl
      | cons y ys => simp [lexLt] at h1
  | cons x xs ih =>
      intro b h1 h2
      cases b with
      | nil => simp [lexLt] at h2
      | cons y ys =>
          have hx : ¬ (x < y ∨ (x = y ∧ lexLt xs ys = true)) := by
            rw [← lexLt_cons_iff x y xs ys]
            simp [h1]
          have hy : ¬ (y < x ∨ (y = x ∧ lexLt ys xs = true)) := by
            rw [← lexLt_cons_iff y x ys xs]
            simp [h2]
          push_neg at hx hy
          obtain ⟨hx1, hx2⟩ := hx
          obtain ⟨hy1, hy2⟩ := hy
          have hxy : x = y := by omega
          subst hxy
          have e1 : lexLt xs ys = false := by
            have := hx2 rfl
            simp at this
            exact this
          have e2 : lexLt ys xs = false := by
            have := hy2 rfl
            simp at this
            exact this
          rw [ih ys e1 e2]

/-- Characterization of the modelled three-way comparison on the
length-then-lexicographic component. -/
theorem ite3_lt_iff (n m : Nat) (r : Bool) :
    (if n < m then true else if m < n then false else r) = true
      ↔ (n < m ∨ (n = m ∧ r = true)) := by
  rcases Nat.lt_trichotomy n m with h | h | h
  · simp [h]
  · subst h
    simp
  · have h1 : ¬ n < m := by omega
    have h2 : n ≠ m := by omega
    simp [h, h1, h2]

/-- Characterization of the modelled strict order: sign first (negative
below non-negative), then byte length, then lexicographic bytes. -/
theorem lt_iff (a b : big_number) :
    a.lt b = true ↔
      (a.negative = true ∧ b.negative = false)
        ∨ (a.negative = b.negative
            ∧ (a.bytes.length < b.bytes.length
                ∨ (a.bytes.length = b.bytes.length ∧ lexLt a.bytes b.bytes = true))) := by
  cases ha : a.negative <;> cases hb : b.negative <;>
    simp [big_number.lt, ha, hb, ite3_lt_iff]
  all_goals
    constructor
    · rintro (h | ⟨h1, h2⟩)
      · exact Or.inl h
      · rcases Nat.lt_or_ge a.bytes.length b.bytes.length with hlt | hge
        · exact Or.inl hlt
        · exact Or.inr ⟨by omega, h2⟩
    · rintro (h | ⟨h1, h2⟩)
      · exact Or.inl h
      · exact Or.inr ⟨by omega, h2⟩

/-- C5: the modelled comparison operators form a total order ordering by
sign first, then by canonical byte length, then lexicographically on the
bytes: the strict order is irreflexive, transitive and trichotomous,
non-strict order is strict-or-equal, and the value decoded from compact
0x1b0404cb is strictly below the value decoded from 0x1d00ffff. -/
theorem C5_total_order :
    (∀ a : big_number, a.lt a = false)
      ∧ (∀ a b c : big_number, a.lt b = true → b.lt c = true → a.lt c = true)
      ∧ (∀ a b : big_number, a.lt b = true ∨ a = b ∨ b.lt a = true)
      ∧ (∀ a b : big_number, a.le b = true ↔ (a.lt b = true ∨ a = b))
      ∧ (set_compact 0x1b0404cb).lt (set_compact 0x1d00ffff) = true := by
  refine ⟨?_, ?_, ?_, ?_, by decide⟩
  · intro a
    simp [big_number.lt, lexLt_irrefl]
  · intro a b c h1 h2
    rw [lt_iff] at h1 h2 ⊢
    rcases h1 with ⟨ha, hb⟩ | ⟨hab, h1m⟩
    · rcases h2 with ⟨hb2, hc⟩ | ⟨hbc, h2m⟩
      · rw [hb] at hb2
        cases hb2
      · left
        refine ⟨ha, ?_⟩
        rw [← hbc]
        exact hb
    · rcases h2 with ⟨hb2, hc⟩ | ⟨hbc, h2m⟩
      · left
        refine ⟨?_, hc⟩
        rw [hab]
        exact hb2
      · right
        refine ⟨hab.trans hbc, ?_⟩
        rcases h1m with h1l | ⟨h1e, h1x⟩
        · rcases h2m with h2l | ⟨h2e, h2x⟩
          · left; omega
          · left; omega
        · rcases h2m with h2l | ⟨h2e, h2x⟩
          · left; omega
          · right
            exact ⟨by omega, lexLt_trans a.bytes b.bytes c.bytes h1x h2x⟩
  · intro a b
    by_cases hs : a.negative = b.negative
    · rcases Nat.lt_trichotomy a.bytes.length b.bytes.length with h | h | h
      · left
        rw [lt_iff]
        exact Or.inr ⟨hs, Or.inl h⟩
      · cases hx : lexLt a.bytes b.bytes
        · cases hy : lexLt b.bytes a.bytes
          · right; left
            have hbytes := lexLt_antisymm a.bytes b.bytes hx hy
            cases a
            cases b
            simp only at hs hbytes
            rw [hs, hbytes]
          · right; right
            rw [lt_iff]
            exact Or.inr ⟨hs.symm, Or.inr ⟨h.symm, hy⟩⟩
        · left
          rw [lt_iff]
          exact Or.inr ⟨hs, Or.inr ⟨h, hx⟩⟩
      · right; right
        rw [lt_iff]
        exact Or.inr ⟨hs.symm, Or.inl h⟩
    · cases ha : a.negative
      · right; right
        rw [lt_iff]
        left
        refine ⟨?_, ha⟩
        rw [ha] at hs
        cases hb : b.negative
        · rw [hb] at hs
          exact absurd rfl hs
        · rfl
      · left
        rw [lt_iff]
        left
        refine ⟨ha, ?_⟩
        rw [ha] at hs
        cases hb : b.negative
        · rfl
        · rw [hb] at hs
          exact absurd rfl hs
  · intro a b
    simp [big_number.le, Bool.or_eq_true, decide_eq_true_eq]

/-- C5 (witness): transitivity of the strict order applied at three
concrete one-byte magnitudes. -/
theorem C5_total_order_witness :
    (set_data [1]).lt (set_data [3]) = true :=
  C5_total_order.2.1 (set_data [1]) (set_data [2]) (set_data [3]) (by decide) (by decide)

/-- Unfolding of `sub` when the subtrahend's magnitude does not exceed the
minuend's. -/
theorem sub_spec_le (a b : big_number) (h : beVal b.bytes ≤ beVal a.bytes) :
    (a.sub b).bytes = natToBE (beVal a.bytes - beVal b.bytes)
      ∧ (a.sub b).negative
          = (a.negative && !(natToBE (beVal a.bytes - beVal b.bytes)).isEmpty) := by
  simp [big_number.sub, h]

/-- Unfolding of `sub` when the subtrahend's magnitude exceeds the
minuend's. -/
theorem sub_spec_gt (a b : big_number) (h : ¬ beVal b.bytes ≤ beVal a.bytes) :
    (a.sub b).bytes = natToBE (beVal b.bytes - beVal a.bytes)
      ∧ (a.sub b).negative = !a.negative := by
  simp [big_number.sub, h]

/-- C6: subtraction follows sign-magnitude semantics: when `|a| >= |b|` the
result's magnitude is `|a| - |b|` with the sign of `a` (a zero result forced
non-negative by canonicalization), otherwise `|b| - |a|` with the sign of
`a` flipped; on same-sign operands this computes exact integer subtraction;
and concretely `[0x70] - [0x0c]` equals the native integer 100 with
canonical data `[0x64]`. -/
theorem C6_subtraction :
    (∀ a b : big_number, a.negative = b.negative → (a.sub b).toInt = a.toInt - b.toInt)
      ∧ (∀ a b : big_number, beVal b.bytes ≤ beVal a.bytes →
          beVal (a.sub b).bytes = beVal a.bytes - beVal b.bytes
            ∧ (a.sub b).negative = (a.negative && !(a.sub b).bytes.isEmpty))
      ∧ (∀ a b : big_number, beVal a.bytes < beVal b.bytes →
          beVal (a.sub b).bytes = beVal b.bytes - beVal a.bytes
            ∧ (a.sub b).negative = !a.negative)
      ∧ ((set_data [0x70]).sub (set_data [0x0c])).eqNat 100 = true
      ∧ ((set_data [0x70]).sub (set_data [0x0c])).data = [0x64] := by
  refine ⟨?_, ?_, ?_, by decide, by decide⟩
  · intro a b hss
    by_cases hle : beVal b.bytes ≤ beVal a.bytes
    · obtain ⟨hby, hng⟩ := sub_spec_le a b hle
      have hvs : beVal (a.sub b).bytes = beVal a.bytes - beVal b.bytes := by
        rw [hby, beVal_natToBE]
      cases ha : a.negative
      · have hb : b.negative = false := by rw [← hss, ha]
        have hns : (a.sub b).negative = false := by rw [hng, ha]; simp
        simp [big_number.toInt, hns, hvs, ha, hb]
        omega
      · have hb : b.negative = true := by rw [← hss, ha]
        rcases hl : natToBE (beVal a.bytes - beVal b.bytes) with _ | ⟨x, xs⟩
        · have hz : beVal a.bytes - beVal b.bytes = 0 := (natToBE_eq_nil _).mp hl
          have hns : (a.sub b).negative = false := by rw [hng, hl]; simp
          simp [big_number.toInt, hns, hvs, ha, hb]
          omega
        · have hns : (a.sub b).negative = true := by rw [hng, hl, ha]; simp
          simp [big_number.toInt, hns, hvs, ha, hb]
          omega
    · obtain ⟨hby, hng⟩ := sub_spec_gt a b hle
      have hvs : beVal (a.sub b).bytes = beVal b.bytes - beVal a.bytes := by
        rw [hby, beVal_natToBE]
      cases ha : a.negative
      · have hb : b.negative = false := by rw [← hss, ha]
        have hns : (a.sub b).negative = true := by rw [hng, ha]; simp
        simp [big_number.toInt, hns, hvs, ha, hb]
        omega
      · have hb : b.negative = true := by rw [← hss, ha]
        have hns : (a.sub b).negative = false := by rw [hng, ha]; simp
        simp [big_number.toInt, hns, hvs, ha, hb]
        omega
  · intro a b hle
    obtain ⟨hby, hng⟩ := sub_spec_le a b hle
    refine ⟨?_, ?_⟩
    · rw [hby, beVal_natToBE]
    · rw [hng, hby]
  · intro a b hgt
    obtain ⟨hby, hng⟩ := sub_spec_gt a b (by omega)
    refine ⟨?_, hng⟩
    rw [hby, beVal_natToBE]

/-- C6 (witness): exact integer subtraction instantiated at the test
driver's operands 0x70 and 0x0c. -/
theorem C6_subtraction_witness :
    ((set_data [0x70]).sub (set_data [0x0c])).toInt
      = (set_data [0x70]).toInt - (set_data [0x0c]).toInt :=
  C6_subtraction.1 (set_data [0x70]) (set_data [0x0c]) rfl

/-- C7: multiplication sets the magnitude to the product of the operand
magnitudes, the sign to the XOR of the operand signs with a zero result
forced non-negative (hence it computes exact integer multiplication), and
squaring the value built by `set_uint64(0x1f1f1f1f1f1f)` yields the
canonical 12 bytes 03 c8 8d 52 16 db 98 d4 0f 4a 85 c1. -/
theorem C7_multiplication :
    (∀ a b : big_number, beVal (a.mul b).bytes = beVal a.bytes * beVal b.bytes)
      ∧ (∀ a b : big_number, (a.mul b).negative
          = ((a.negative != b.negative) && !(a.mul b).bytes.isEmpty))
      ∧ (∀ a b : big_number, (a.mul b).toInt = a.toInt * b.toInt)
      ∧ ((set_uint64 0x1f1f1f1f1f1f).mul (set_uint64 0x1f1f1f1f1f1f)).data
          = [0x03, 0xc8, 0x8d, 0x52, 0x16, 0xdb, 0x98, 0xd4, 0x0f, 0x4a, 0x85, 0xc1] := by
  refine ⟨?_, ?_, ?_, by decide⟩
  · intro a b
    simp [big_number.mul, beVal_natToBE]
  · intro a b
    simp [big_number.mul]
  · intro a b
    have hv : beVal (a.mul b).bytes = beVal a.bytes * beVal b.bytes := by
      simp [big_number.mul, beVal_natToBE]
    have hs2 : (a.mul b).negative = ((a.negative != b.negative) && !(a.mul b).bytes.isEmpty) := by
      simp [big_number.mul]
    have key : (a.mul b).toInt
        = if (a.negative != b.negative) = true
            then -((beVal a.bytes : Int) * (beVal b.bytes : Int))
            else (beVal a.bytes : Int) * (beVal b.bytes : Int) := by
      rcases hl : (a.mul b).bytes with _ | ⟨x, xs⟩
      · have hz : beVal a.bytes * beVal b.bytes = 0 := by
          rw [← hv, hl]
          rfl
        have hz2 : ((beVal a.bytes : Int) * (beVal b.bytes : Int)) = 0 := by
          exact_mod_cast hz
        have hns : (a.mul b).negative = false := by rw [hs2, hl]; simp
        simp only [big_number.toInt, hns, hl, beVal_nil]
        simp [hz2]
      · have hemp : (a.mul b).bytes.isEmpty = false := by rw [hl]; rfl
        have hns : (a.mul b).negative = (a.negative != b.negative) := by
          rw [hs2, hemp]
          simp
        simp only [big_number.toInt, hns, hv, Nat.cast_mul]
    rw [key]
    cases ha : a.negative <;> cases hb : b.negative <;>
      simp [big_number.toInt, ha, hb]

/-- C8: every modelled constructor and operation leaves the value in
canonical form (no superfluous leading zero byte, bytes below 256, zero
magnitude forced non-negative); `set_data` does so whenever its caller
supplies canonical bytes as the spec requires; and `set_compact(0)` is the
non-negative zero magnitude whose `hash()` is 32 zero bytes. -/
theorem C8_canonical_invariant :
    (∀ d, CanonBytes d → Canonical (set_data d))
      ∧ (∀ v, Canonical (set_uint64 v))
      ∧ (∀ h, (∀ b ∈ h, b < 256) → Canonical (set_hash h))
      ∧ (∀ c, Canonical (set_compact c))
      ∧ (∀ a b : big_number, Canonical (a.sub b))
      ∧ (∀ a b : big_number, Canonical (a.mul b))
      ∧ set_compact 0 = big_number.mk false []
      ∧ (set_compact 0).hash = Except.ok (List.replicate 32 0) := by
  refine ⟨?_, ?_, ?_, ?_, ?_, ?_, by decide, by rfl⟩
  · intro d hd
    exact ⟨hd, fun _ => rfl⟩
  · intro v
    exact ⟨⟨natToBE_lt256 _, natToBE_head _⟩, fun _ => rfl⟩
  · intro h hh
    refine ⟨⟨?_, dropWhile_head_ne_zero h⟩, fun _ => rfl⟩
    intro b hb
    exact hh b ((List.dropWhile_sublist _).subset hb)
  · intro c
    have hmag : (set_compact c).bytes
        = (if c / 2 ^ 24 % 2 ^ 8 ≤ 3
            then ([c % 2 ^ 23 / 2 ^ 16, c % 2 ^ 23 / 2 ^ 8 % 2 ^ 8,
                c % 2 ^ 23 % 2 ^ 8]).take (c / 2 ^ 24 % 2 ^ 8)
            else [c % 2 ^ 23 / 2 ^ 16, c % 2 ^ 23 / 2 ^ 8 % 2 ^ 8, c % 2 ^ 23 % 2 ^ 8]
              ++ List.replicate (c / 2 ^ 24 % 2 ^ 8 - 3) 0).dropWhile (· == 0) := rfl
    have hm : c % 2 ^ 23 < 2 ^ 23 := Nat.mod_lt _ (by omega)
    refine ⟨⟨?_, ?_⟩, ?_⟩
    · intro b hb
      rw [hmag] at hb
      have hb2 := (List.dropWhile_sublist _).subset hb
      split at hb2
      · have hb3 := List.mem_of_mem_take hb2
        simp at hb3
        rcases hb3 with h3 | h3 | h3 <;> omega
      · rcases List.mem_append.mp hb2 with h3 | h3
        · simp at h3
          rcases h3 with h3 | h3 | h3 <;> omega
        · rw [List.eq_of_mem_replicate h3]
          omega
    · rw [hmag]
      exact dropWhile_head_ne_zero _
    · intro hnil
      have hneg : (set_compact c).negative
          = (c / 2 ^ 23 % 2 == 1 && !(set_compact c).bytes.isEmpty) := rfl
      rw [hneg, hnil]
      simp
  · intro a b
    by_cases hle : beVal b.bytes ≤ beVal a.bytes
    · obtain ⟨hby, hng⟩ := sub_spec_le a b hle
      refine ⟨⟨?_, ?_⟩, ?_⟩
      · rw [hby]; exact natToBE_lt256 _
      · rw [hby]; exact natToBE_head _
      · intro hnil
        rw [hby] at hnil
        rw [hng, hnil]
        simp
    · obtain ⟨hby, hng⟩ := sub_spec_gt a b hle
      refine ⟨⟨?_, ?_⟩, ?_⟩
      · rw [hby]; exact natToBE_lt256 _
      · rw [hby]; exact natToBE_head _
      · intro hnil
        rw [hby, natToBE_eq_nil] at hnil
        omega
  · intro a b
    refine ⟨⟨?_, ?_⟩, ?_⟩
    · simp only [big_number.mul]
      exact natToBE_lt256 _
    · simp only [big_number.mul]
      exact natToBE_head _
    · intro hnil
      simp only [big_number.mul] at hnil ⊢
      rw [hnil]
      simp

/-- C8 (witness): the invariant instantiated at the canonical one-byte
input 7 for `set_data` and at a 32-byte all-ones buffer for `set_hash`. -/
theorem C8_canonical_invariant_witness :
    Canonical (set_data [0x07]) ∧ Canonical (set_hash (List.replicate 32 1)) :=
  ⟨C8_canonical_invariant.1 [0x07] (by decide),
   C8_canonical_invariant.2.2.1 (List.replicate 32 1) (by decide)⟩

end Libbitcoin
